import Mathlib

/-!
Verification of the atomVis procedural scene/animation engine.

This file gives a shallow embedding, over exact reals and integers, of the
geometry and animation functions of the repository (`src/components/AtomViewer.tsx`,
`src/data/molecules.ts`, the App component in `src/unnamed/part_001`), and proves
the behavioural properties stated about them.  Floating-point numbers of the
source are modelled as real numbers, JavaScript arrays as lists, and the random
draws of `Math.random()` as explicit function arguments.
-/

namespace AtomVis

/-- Shallow embedding of `THREE.Vector3`: a 3-component real vector. -/
structure Vec3 where
  x : ℝ
  y : ℝ
  z : ℝ

namespace Vec3

/-- The zero vector, the value of `new THREE.Vector3()`. -/
def zero : Vec3 := ⟨0, 0, 0⟩

instance : Inhabited Vec3 := ⟨zero⟩

/-- Componentwise addition, `Vector3.add`. -/
def add (a b : Vec3) : Vec3 := ⟨a.x + b.x, a.y + b.y, a.z + b.z⟩

/-- Componentwise subtraction, `Vector3.subVectors(a, b) = a - b`. -/
def sub (a b : Vec3) : Vec3 := ⟨a.x - b.x, a.y - b.y, a.z - b.z⟩

/-- Scalar multiplication, `Vector3.multiplyScalar`. -/
def smul (c : ℝ) (a : Vec3) : Vec3 := ⟨c * a.x, c * a.y, c * a.z⟩

/-- Scalar division, `Vector3.divideScalar`. -/
noncomputable def divScalar (a : Vec3) (c : ℝ) : Vec3 := ⟨a.x / c, a.y / c, a.z / c⟩

/-- Squared Euclidean length, `Vector3.lengthSq`. -/
def normSq (a : Vec3) : ℝ := a.x * a.x + a.y * a.y + a.z * a.z

/-- Euclidean length, `Vector3.length`. -/
noncomputable def norm (a : Vec3) : ℝ := Real.sqrt a.normSq

/-- Distance between two points, `Vector3.distanceTo`. -/
noncomputable def dist (a b : Vec3) : ℝ := (sub b a).norm

/-- Linear interpolation, `Vector3.lerpVectors(a, b, t)`; `v.lerp(b, t)` is the
same formula applied to `v` in place. -/
def lerp (a b : Vec3) (t : ℝ) : Vec3 := add a (smul t (sub b a))

/-- Normalisation, `Vector3.normalize`.  The source divides by `length() || 1`;
since in Lean division by zero yields zero, dividing the zero vector by its
length `0` yields the zero vector exactly as the `|| 1` guard does, so the two
definitions agree on every input. -/
noncomputable def normalize (a : Vec3) : Vec3 := divScalar a a.norm

theorem normSq_nonneg (a : Vec3) : 0 ≤ a.normSq := by
  have hx := mul_self_nonneg a.x
  have hy := mul_self_nonneg a.y
  have hz := mul_self_nonneg a.z
  unfold normSq; linarith

theorem norm_nonneg (a : Vec3) : 0 ≤ a.norm := Real.sqrt_nonneg _

theorem normSq_smul (c : ℝ) (a : Vec3) : (smul c a).normSq = c ^ 2 * a.normSq := by
  simp only [smul, normSq]; ring

theorem norm_smul (c : ℝ) (a : Vec3) : (smul c a).norm = |c| * a.norm := by
  rw [norm, normSq_smul, Real.sqrt_mul (sq_nonneg c), Real.sqrt_sq_eq_abs, norm]

theorem lerp_self (a : Vec3) (t : ℝ) : lerp a a t = a := by
  simp only [lerp, add, smul, sub]
  cases a with
  | mk x y z => simp

theorem lerp_zero (a b : Vec3) : lerp a b 0 = a := by
  simp only [lerp, add, smul, sub]
  cases a with
  | mk x y z => simp

end Vec3

/-- Golden-angle spiral point: the body of the loop of `getSpherePoints`
(`AtomViewer.tsx` lines 421-428): `y = 1 - (i / (samples - 1)) * 2`,
`r = sqrt(1 - y*y)`, `theta = phi * i` with `phi = π(3 - √5)`, and the point
`(cos θ · r, y, sin θ · r)` scaled by `radius`. -/
noncomputable def goldenAnglePoint (samples : ℕ) (radius : ℝ) (i : ℕ) : Vec3 :=
  let y : ℝ := 1 - ((i : ℝ) / ((samples : ℝ) - 1)) * 2
  let r : ℝ := Real.sqrt (1 - y * y)
  let theta : ℝ := (Real.pi * (3 - Real.sqrt 5)) * (i : ℝ)
  Vec3.smul radius ⟨Real.cos theta * r, y, Real.sin theta * r⟩

/-- Shallow embedding of `getSpherePoints(samples, radius)`
(`AtomViewer.tsx` lines 414-430; the identical copy in `src/unnamed/part_001`
lines 54-70): empty for `samples <= 0`, the single pole `(0, radius, 0)` for
`samples == 1`, otherwise the golden-angle spiral points for `i` in
`[0, samples)`. -/
noncomputable def getSpherePoints (samples : ℕ) (radius : ℝ) : List Vec3 :=
  if samples = 0 then []
  else if samples = 1 then [⟨0, radius, 0⟩]
  else (List.range samples).map (goldenAnglePoint samples radius)

theorem getSpherePoints_length (samples : ℕ) (radius : ℝ) :
    (getSpherePoints samples radius).length = samples := by
  unfold getSpherePoints
  by_cases h0 : samples = 0
  · simp [h0]
  · by_cases h1 : samples = 1
    · simp [h0, h1]
    · simp [h0, h1]

theorem goldenAnglePoint_norm (samples : ℕ) (radius : ℝ) (i : ℕ)
    (hr : 0 ≤ radius) (h2 : 2 ≤ samples) (hi : i < samples) :
    (goldenAnglePoint samples radius i).norm = radius := by
  unfold goldenAnglePoint
  set y : ℝ := 1 - ((i : ℝ) / ((samples : ℝ) - 1)) * 2 with hy
  have hden : (0 : ℝ) < (samples : ℝ) - 1 := by
    have : (2 : ℝ) ≤ (samples : ℝ) := by exact_mod_cast h2
    linarith
  have hfrac0 : (0 : ℝ) ≤ (i : ℝ) / ((samples : ℝ) - 1) :=
    div_nonneg (Nat.cast_nonneg i) (le_of_lt hden)
  have hfrac1 : (i : ℝ) / ((samples : ℝ) - 1) ≤ 1 := by
    rw [div_le_one hden]
    have : (i : ℝ) ≤ (samples : ℝ) - 1 := by
      have hle : (i : ℝ) + 1 ≤ (samples : ℝ) := by exact_mod_cast hi
      linarith
    exact this
  have hy1 : y ≤ 1 := by rw [hy]; linarith
  have hy2 : -1 ≤ y := by rw [hy]; linarith
  have hyy : 0 ≤ 1 - y * y := by nlinarith
  have hsq : Real.sqrt (1 - y * y) * Real.sqrt (1 - y * y) = 1 - y * y :=
    Real.mul_self_sqrt hyy
  rw [Vec3.norm_smul, abs_of_nonneg hr]
  have hinner : (Vec3.mk (Real.cos ((Real.pi * (3 - Real.sqrt 5)) * (i : ℝ)) * Real.sqrt (1 - y * y)) y
      (Real.sin ((Real.pi * (3 - Real.sqrt 5)) * (i : ℝ)) * Real.sqrt (1 - y * y))).norm = 1 := by
    unfold Vec3.norm Vec3.normSq
    have htrig : Real.cos ((Real.pi * (3 - Real.sqrt 5)) * (i : ℝ)) ^ 2 +
        Real.sin ((Real.pi * (3 - Real.sqrt 5)) * (i : ℝ)) ^ 2 = 1 :=
      Real.cos_sq_add_sin_sq _
    have : Real.cos ((Real.pi * (3 - Real.sqrt 5)) * (i : ℝ)) * Real.sqrt (1 - y * y) *
          (Real.cos ((Real.pi * (3 - Real.sqrt 5)) * (i : ℝ)) * Real.sqrt (1 - y * y)) +
        y * y +
        Real.sin ((Real.pi * (3 - Real.sqrt 5)) * (i : ℝ)) * Real.sqrt (1 - y * y) *
          (Real.sin ((Real.pi * (3 - Real.sqrt 5)) * (i : ℝ)) * Real.sqrt (1 - y * y)) = 1 := by
      nlinarith [hsq, htrig]
    rw [this, Real.sqrt_one]
  rw [hinner, mul_one]

theorem getSpherePoints_norm (samples : ℕ) (radius : ℝ) (hr : 0 ≤ radius) :
    ∀ p ∈ getSpherePoints samples radius, p.norm = radius := by
  intro p hp
  unfold getSpherePoints at hp
  by_cases h0 : samples = 0
  · simp [h0] at hp
  · by_cases h1 : samples = 1
    · simp [h0, h1] at hp
      subst hp
      unfold Vec3.norm Vec3.normSq
      simp only
      rw [show (0 : ℝ) * 0 + radius * radius + 0 * 0 = radius ^ 2 by ring,
        Real.sqrt_sq hr]
    · simp only [h0, h1, if_false, List.mem_map, List.mem_range] at hp
      obtain ⟨i, hi, hpt⟩ := hp
      have h2 : 2 ≤ samples := by omega
      rw [← hpt]
      exact goldenAnglePoint_norm samples radius i hr h2 hi

/-- C3 (counterexample to the claim as stated): for a negative radius the
returned point does not lie at distance `radius` from the origin.
`getSpherePoints 1 (-1)` returns the single point `(0, -1, 0)`, whose distance
from the origin is `1`, not `-1`. -/
theorem getSpherePoints_negRadius_counterexample :
    getSpherePoints 1 (-1) = [⟨0, -1, 0⟩] ∧ Vec3.norm ⟨0, -1, 0⟩ ≠ -1 := by
  constructor
  · unfold getSpherePoints; norm_num
  · unfold Vec3.norm Vec3.normSq
    simp only
    rw [show (0 : ℝ) * 0 + (-1) * (-1) + 0 * 0 = 1 by ring, Real.sqrt_one]
    norm_num

/-- C3 (amended): for every `count ≥ 0` and radius, `getSpherePoints` is
deterministic and returns exactly `count` points — empty for `count = 0`,
exactly `(0, radius, 0)` for `count = 1`, and otherwise for each `i` the
golden-angle point `radius·(cos θᵢ · rᵢ, yᵢ, sin θᵢ · rᵢ)` with
`yᵢ = 1 − 2i/(count−1)`, `rᵢ = √(1 − yᵢ²)`, `θᵢ = i·π(3 − √5)`; and whenever
the radius is nonnegative (the only way the source ever calls it) every
returned point lies at distance `radius` from the origin. -/
theorem getSpherePoints_spec (n i : ℕ) (radius : ℝ) :
    (getSpherePoints n radius).length = n ∧
    getSpherePoints 0 radius = [] ∧
    getSpherePoints 1 radius = [⟨0, radius, 0⟩] ∧
    (2 ≤ n → i < n →
      (getSpherePoints n radius).getD i Vec3.zero =
        Vec3.smul radius
          ⟨Real.cos ((i : ℝ) * (Real.pi * (3 - Real.sqrt 5))) *
              Real.sqrt (1 - (1 - 2 * (i : ℝ) / ((n : ℝ) - 1)) ^ 2),
            1 - 2 * (i : ℝ) / ((n : ℝ) - 1),
            Real.sin ((i : ℝ) * (Real.pi * (3 - Real.sqrt 5))) *
              Real.sqrt (1 - (1 - 2 * (i : ℝ) / ((n : ℝ) - 1)) ^ 2)⟩) ∧
    (0 ≤ radius → ∀ p ∈ getSpherePoints n radius, p.norm = radius) := by
  refine ⟨getSpherePoints_length n radius, by unfold getSpherePoints; norm_num,
    by unfold getSpherePoints; norm_num, ?_, fun hr => getSpherePoints_norm n radius hr⟩
  intro h2 hi
  have hne0 : ¬ n = 0 := by omega
  have hne1 : ¬ n = 1 := by omega
  have hy : (1 : ℝ) - 2 * (i : ℝ) / ((n : ℝ) - 1) =
      1 - ((i : ℝ) / ((n : ℝ) - 1)) * 2 := by ring
  have hth : (i : ℝ) * (Real.pi * (3 - Real.sqrt 5)) =
      (Real.pi * (3 - Real.sqrt 5)) * (i : ℝ) := by ring
  have hsq : ((1 : ℝ) - ((i : ℝ) / ((n : ℝ) - 1)) * 2) ^ 2 =
      (1 - ((i : ℝ) / ((n : ℝ) - 1)) * 2) * (1 - ((i : ℝ) / ((n : ℝ) - 1)) * 2) := by
    ring
  simp only [getSpherePoints, hne0, hne1, if_false, List.getD_eq_getElem?_getD,
    List.getElem?_map, List.getElem?_range, hi, if_true, Option.map_some,
    Option.getD_some]
  rw [hy, hth, hsq]
  rfl

/-- Witness for `getSpherePoints_spec` at `n = 2`, `i = 0`, `radius = 2`,
discharging the nonnegativity hypothesis of the distance clause. -/
theorem getSpherePoints_spec_witness :
    (0 : ℝ) ≤ 2 ∧ (getSpherePoints 2 2).length = 2 ∧
      (∀ p ∈ getSpherePoints 2 2, p.norm = 2) :=
  ⟨by norm_num, (getSpherePoints_spec 2 0 2).1,
    (getSpherePoints_spec 2 0 2).2.2.2.2 (by norm_num)⟩

/-! ### Trail-history buffers

Both animation branches shift a per-electron trail buffer the same way
(`AtomViewer.tsx` lines 622-634 for Classical mode, lines 656-664 for Quantum
mode): a loop `for (i = trailLen - 1; i > 0; i--)` copies slot `i-1` into
slot `i`, then the electron's current world position is written into slot 0.
The buffer (a slice of a `Float32Array` of 3D samples) is modelled as a
`List Vec3`; `setXYZ` becomes `List.set` (both ignore out-of-range writes) and
reading a slot becomes `List.getD`. -/

/-- The descending shift loop: `trailShiftLoop buf k` performs
`buf[i] := buf[i-1]` for `i = k, k-1, …, 1` in that order. -/
def trailShiftLoop (buf : List Vec3) : ℕ → List Vec3
  | 0 => buf
  | i + 1 => trailShiftLoop (buf.set (i + 1) (buf.getD i Vec3.zero)) i

/-- One animation tick on one electron's trail buffer: shift every sample one
slot toward the tail, then write the current world position into slot 0. -/
def tickTrail (pos : Vec3) (buf : List Vec3) : List Vec3 :=
  (trailShiftLoop buf (buf.length - 1)).set 0 pos

/-- `runTrail f buf k`: the trail buffer after `k` animation ticks, where the
electron's world position at tick `t` is `f t`. -/
def runTrail (f : ℕ → Vec3) (buf : List Vec3) : ℕ → List Vec3
  | 0 => buf
  | k + 1 => tickTrail (f k) (runTrail f buf k)

theorem trailShiftLoop_length (k : ℕ) (buf : List Vec3) :
    (trailShiftLoop buf k).length = buf.length := by
  induction k generalizing buf with
  | zero => rfl
  | succ i ih => rw [trailShiftLoop, ih, List.length_set]

theorem trailShiftLoop_getD (k : ℕ) (buf : List Vec3) (hk : k < buf.length) (j : ℕ) :
    (trailShiftLoop buf k).getD j Vec3.zero =
      if 1 ≤ j ∧ j ≤ k then buf.getD (j - 1) Vec3.zero else buf.getD j Vec3.zero := by
  induction k generalizing buf with
  | zero =>
    simp only [trailShiftLoop]
    have : ¬ (1 ≤ j ∧ j ≤ 0) := by omega
    rw [if_neg this]
  | succ i ih =>
    rw [trailShiftLoop]
    have hlen : i < (buf.set (i + 1) (buf.getD i Vec3.zero)).length := by
      rw [List.length_set]; omega
    rw [ih _ hlen]
    have hset : ∀ m : ℕ, (buf.set (i + 1) (buf.getD i Vec3.zero)).getD m Vec3.zero =
        if m = i + 1 then buf.getD i Vec3.zero else buf.getD m Vec3.zero := by
      intro m
      simp only [List.getD_eq_getElem?_getD, List.getElem?_set]
      by_cases hm : i + 1 = m
      · rw [if_pos hm, if_pos hm.symm, if_pos hk]
        simp [List.getD_eq_getElem?_getD]
      · rw [if_neg hm, if_neg (fun h => hm h.symm)]
    by_cases h1 : 1 ≤ j ∧ j ≤ i
    · rw [if_pos h1, if_pos (by omega : 1 ≤ j ∧ j ≤ i + 1), hset]
      rw [if_neg (by omega : ¬ j - 1 = i + 1)]
    · rw [if_neg h1, hset]
      by_cases h2 : j = i + 1
      · rw [if_pos h2, if_pos (by omega : 1 ≤ j ∧ j ≤ i + 1), h2]
        norm_num
      · rw [if_neg h2, if_neg (by omega : ¬ (1 ≤ j ∧ j ≤ i + 1))]

theorem tickTrail_length (pos : Vec3) (buf : List Vec3) :
    (tickTrail pos buf).length = buf.length := by
  rw [tickTrail, List.length_set, trailShiftLoop_length]

theorem tickTrail_getD_zero (pos : Vec3) (buf : List Vec3) (h : 0 < buf.length) :
    (tickTrail pos buf).getD 0 Vec3.zero = pos := by
  rw [tickTrail]
  simp only [List.getD_eq_getElem?_getD, List.getElem?_set]
  rw [if_pos trivial, if_pos (by rw [trailShiftLoop_length]; exact h)]
  rfl

theorem tickTrail_getD (pos : Vec3) (buf : List Vec3) (j : ℕ)
    (h1 : 1 ≤ j) (hj : j < buf.length) :
    (tickTrail pos buf).getD j Vec3.zero = buf.getD (j - 1) Vec3.zero := by
  rw [tickTrail]
  have hne : ¬ (0 = j) := by omega
  simp only [List.getD_eq_getElem?_getD, List.getElem?_set, if_neg hne]
  have hk : buf.length - 1 < buf.length := by omega
  have := trailShiftLoop_getD (buf.length - 1) buf hk j
  simp only [List.getD_eq_getElem?_getD] at this
  rw [this, if_pos (by omega : 1 ≤ j ∧ j ≤ buf.length - 1)]

theorem runTrail_length (f : ℕ → Vec3) (buf : List Vec3) (k : ℕ) :
    (runTrail f buf k).length = buf.length := by
  induction k with
  | zero => rfl
  | succ k ih => rw [runTrail, tickTrail_length, ih]

/-- C2: for every electron with a trail buffer, after any animation tick the
buffer still holds exactly `trailLength` samples, slot 0 holds the electron's
current world position, and every slot `i` with `1 ≤ i < trailLength` holds the
sample that sat in slot `i-1` before the tick; the length invariant holds after
any number of ticks ≥ 0, and it holds whatever the per-tick positions are (so
in particular for a stationary electron).  The same shift loop implements both
the Classical branch (`AtomViewer.tsx` 613-637) and the Quantum branch
(656-664). -/
theorem trail_buffer_invariant (f : ℕ → Vec3) (buf : List Vec3) (n : ℕ)
    (hn : buf.length = n) :
    (∀ k, (runTrail f buf k).length = n) ∧
    (∀ k, 0 < n → (runTrail f buf (k + 1)).getD 0 Vec3.zero = f k) ∧
    (∀ k j, 1 ≤ j → j < n →
      (runTrail f buf (k + 1)).getD j Vec3.zero =
        (runTrail f buf k).getD (j - 1) Vec3.zero) := by
  refine ⟨fun k => by rw [runTrail_length, hn], fun k hpos => ?_, fun k j h1 hj => ?_⟩
  · rw [runTrail]
    exact tickTrail_getD_zero _ _ (by rw [runTrail_length, hn]; exact hpos)
  · rw [runTrail]
    exact tickTrail_getD _ _ j h1 (by rw [runTrail_length, hn]; exact hj)

/-- Witness for `trail_buffer_invariant`: a two-slot buffer keeps exactly two
samples after three ticks. -/
theorem trail_buffer_invariant_witness :
    ([Vec3.zero, Vec3.zero] : List Vec3).length = 2 ∧
    (runTrail (fun _ => Vec3.zero) [Vec3.zero, Vec3.zero] 3).length = 2 :=
  ⟨rfl, (trail_buffer_invariant (fun _ => Vec3.zero) [Vec3.zero, Vec3.zero] 2 rfl).1 3⟩

/-! ### Bonds -/

/-- A bond record (`src/types.ts` lines 51-54): a pair of atom indices and an
order in {1,2,3}.  Indices are modelled as integers because the SDF parser can
produce any integer (it subtracts 1 from a parsed field) and JavaScript array
indexing with a negative number simply yields `undefined`. -/
structure Bond where
  pair : ℤ × ℤ
  type : ℕ
deriving DecidableEq, Repr

/-- JavaScript array indexing `l[i]` with a possibly-negative index: an index
outside `[0, length)` yields `undefined`, modelled as `none`. -/
def intGet {α : Type} (l : List α) (i : ℤ) : Option α :=
  if 0 ≤ i then l.get? i.toNat else none

/-- The mutable pose state of one bond group in the scene.  The group's
quaternion is modelled by the image of the canonical up axis `(0,1,0)` under
it, which is exactly what `Quaternion.setFromUnitVectors(up, dir)` fixes. -/
structure BondState where
  pair : ℤ × ℤ
  opacity : ℝ
  position : Vec3
  scaleX : ℝ
  scaleY : ℝ
  scaleZ : ℝ
  upImage : Vec3
  visible : Bool

/-- One bond group's per-tick update (`AtomViewer.tsx` lines 673-691): set every
cylinder material's opacity to the bonding progress; then, unless an endpoint
index is out of range of the nuclei list, set the group position to the
midpoint `posA.lerp(posB, 0.5)`, the orientation to the rotation taking the up
axis to `normalize(posB - posA)`, the scale to `(1, |posA - posB|, 1)` and make
the group visible. -/
noncomputable def updateBond (bondingProgress : ℝ) (nuclei : List Vec3)
    (b : BondState) : BondState :=
  let b1 := { b with opacity := bondingProgress }
  match intGet nuclei b.pair.1, intGet nuclei b.pair.2 with
  | some posA, some posB =>
      { b1 with
        position := Vec3.lerp posA posB (1 / 2)
        upImage := Vec3.normalize (Vec3.sub posB posA)
        scaleX := 1
        scaleY := Vec3.dist posA posB
        scaleZ := 1
        visible := true }
  | _, _ => b1

/-- The bond section of the animation tick (`AtomViewer.tsx` lines 672-692):
runs only when at least one bond group and at least two nuclei exist. -/
noncomputable def updateBonds (bondingProgress : ℝ) (nuclei : List Vec3)
    (bonds : List BondState) : List BondState :=
  if 0 < bonds.length ∧ 1 < nuclei.length then
    bonds.map (updateBond bondingProgress nuclei)
  else bonds

/-- C1: at every tick with at least one bond group and at least two nuclei,
every bond group whose endpoint indices resolve to nuclei gets opacity equal to
the bonding-progress scalar, position equal to the midpoint of its endpoints,
scale `(1, distance, 1)`, an orientation taking the canonical up axis to the
normalised endpoint-to-endpoint vector, and becomes visible. -/
theorem bond_pose_update_spec (bondingProgress : ℝ) (nuclei : List Vec3)
    (bonds : List BondState) (k : ℕ) (b : BondState) (posA posB : Vec3)
    (hn : 1 < nuclei.length) (hk : bonds.get? k = some b)
    (hA : intGet nuclei b.pair.1 = some posA)
    (hB : intGet nuclei b.pair.2 = some posB) :
    (updateBonds bondingProgress nuclei bonds).get? k = some
      { pair := b.pair
        opacity := bondingProgress
        position := Vec3.lerp posA posB (1 / 2)
        scaleX := 1
        scaleY := Vec3.dist posA posB
        scaleZ := 1
        upImage := Vec3.normalize (Vec3.sub posB posA)
        visible := true } ∧
    Vec3.lerp posA posB (1 / 2) = Vec3.smul (1 / 2) (Vec3.add posA posB) := by
  constructor
  · have hlen : 0 < bonds.length := by
      by_contra h
      have : bonds = [] := List.eq_nil_of_length_eq_zero (by omega)
      rw [this] at hk
      simp at hk
    rw [updateBonds, if_pos ⟨hlen, hn⟩, List.get?_map, hk, Option.map_some']
    rw [updateBond, hA, hB]
  · simp only [Vec3.lerp, Vec3.add, Vec3.smul, Vec3.sub, Vec3.mk.injEq]
    refine ⟨by ring, by ring, by ring⟩

/-- Witness for `bond_pose_update_spec`: two nuclei at `(0,0,0)` and `(0,2,0)`
joined by one bond group with pair `(0, 1)`. -/
theorem bond_pose_update_spec_witness :
    1 < ([Vec3.zero, ⟨0, 2, 0⟩] : List Vec3).length ∧
    (updateBonds 1 [Vec3.zero, ⟨0, 2, 0⟩]
        [⟨(0, 1), 0, Vec3.zero, 1, 1, 1, Vec3.zero, false⟩]).get? 0 = some
      { pair := ((0 : ℤ), (1 : ℤ))
        opacity := 1
        position := Vec3.lerp Vec3.zero ⟨0, 2, 0⟩ (1 / 2)
        scaleX := 1
        scaleY := Vec3.dist Vec3.zero ⟨0, 2, 0⟩
        scaleZ := 1
        upImage := Vec3.normalize (Vec3.sub ⟨0, 2, 0⟩ Vec3.zero)
        visible := true } := by
  refine ⟨by norm_num, ?_⟩
  exact (bond_pose_update_spec 1 [Vec3.zero, ⟨0, 2, 0⟩]
    [⟨(0, 1), 0, Vec3.zero, 1, 1, 1, Vec3.zero, false⟩] 0
    ⟨(0, 1), 0, Vec3.zero, 1, 1, 1, Vec3.zero, false⟩ Vec3.zero ⟨0, 2, 0⟩
    (by norm_num) rfl (by simp [intGet]) (by simp [intGet])).1

/-! ### Classical-mode electron pivot placement -/

/-- Sum of a list of vectors, the repeated `bondCentroid.add(pos)` of the
source. -/
def vecSum (l : List Vec3) : Vec3 := l.foldl Vec3.add Vec3.zero

/-- Centroid of a list of points (`AtomViewer.tsx` lines 592-594): sum the
points, then `divideScalar` by their count. -/
noncomputable def centroid (l : List Vec3) : Vec3 :=
  (vecSum l).divScalar (l.length : ℝ)

/-- The bond-partner collection of the Classical branch (`AtomViewer.tsx`
lines 580-589): for each bond, the partner index of `atomIndex` if the bond
touches it, and then that partner's nucleus position provided a model was
built for it (`animatedObjects[partnerIndex]` is defined). -/
def bondPartnerPositions (bondingPairs : List Bond) (atomIndex : ℤ)
    (nucleusPositions : List Vec3) : List Vec3 :=
  bondingPairs.filterMap fun bond =>
    let partnerIndex : Option ℤ :=
      if bond.pair.1 = atomIndex then some bond.pair.2
      else if bond.pair.2 = atomIndex then some bond.pair.1
      else none
    match partnerIndex with
    | some p => intGet nucleusPositions p
    | none => none

/-- The electron-pivot position computed by the Classical branch
(`AtomViewer.tsx` lines 578-602): the target is the atom's own nucleus
position, replaced by the centroid of the bond partners' positions when the
bonding progress is positive and at least one partner exists; every electron
pivot of the atom is then placed at
`lerpVectors(ownPosition, target, bondingProgress)`. -/
noncomputable def classicalPivotPos (bondingProgress : ℝ) (bondingPairs : List Bond)
    (nucleusPositions : List Vec3) (atomIndex : ℕ) : Vec3 :=
  let ownPos := nucleusPositions.getD atomIndex Vec3.zero
  let targetPosition :=
    if 0 < bondingProgress then
      let partners := bondPartnerPositions bondingPairs (atomIndex : ℤ) nucleusPositions
      if 0 < partners.length then centroid partners else ownPos
    else ownPos
  Vec3.lerp ownPos targetPosition bondingProgress

/-- C4: in Classical mode, when the bonding progress is positive and the atom
has at least one bond partner with a built model, every electron pivot of the
atom sits at the interpolation, by the bonding-progress scalar, between the
atom's own nucleus position and the centroid of its partners' current nucleus
positions; otherwise (progress zero, or no partners) it sits at the atom's own
nucleus position. -/
theorem classical_pivot_lerp_spec (bondingProgress : ℝ) (bondingPairs : List Bond)
    (nucleusPositions : List Vec3) (atomIndex : ℕ) :
    (0 < bondingProgress →
      bondPartnerPositions bondingPairs (atomIndex : ℤ) nucleusPositions ≠ [] →
      classicalPivotPos bondingProgress bondingPairs nucleusPositions atomIndex =
        Vec3.lerp (nucleusPositions.getD atomIndex Vec3.zero)
          (centroid (bondPartnerPositions bondingPairs (atomIndex : ℤ) nucleusPositions))
          bondingProgress) ∧
    (bondingProgress = 0 ∨
        bondPartnerPositions bondingPairs (atomIndex : ℤ) nucleusPositions = [] →
      classicalPivotPos bondingProgress bondingPairs nucleusPositions atomIndex =
        nucleusPositions.getD atomIndex Vec3.zero) := by
  constructor
  · intro hpos hne
    rw [classicalPivotPos]
    simp only [if_pos hpos, if_pos (List.length_pos.mpr hne)]
  · intro h
    rw [classicalPivotPos]
    rcases h with h0 | hemp
    · subst h0
      simp only [lt_irrefl, if_false, Vec3.lerp_zero]
    · by_cases hpos : 0 < bondingProgress
      · have : ¬ 0 < (bondPartnerPositions bondingPairs (atomIndex : ℤ)
            nucleusPositions).length := by
          rw [hemp]; simp
        simp only [if_pos hpos, if_neg this, Vec3.lerp_self]
      · simp only [if_neg hpos, Vec3.lerp_self]

/-- Witness for `classical_pivot_lerp_spec`: atom 0 at the origin bonded to
atom 1 at `(2,0,0)`, bonding progress 1. -/
theorem classical_pivot_lerp_spec_witness :
    (0 : ℝ) < 1 ∧
    bondPartnerPositions [⟨(0, 1), 1⟩] ((0 : ℕ) : ℤ) [Vec3.zero, ⟨2, 0, 0⟩] ≠ [] ∧
    classicalPivotPos 1 [⟨(0, 1), 1⟩] [Vec3.zero, ⟨2, 0, 0⟩] 0 =
      Vec3.lerp (([Vec3.zero, ⟨2, 0, 0⟩] : List Vec3).getD 0 Vec3.zero)
        (centroid (bondPartnerPositions [⟨(0, 1), 1⟩] ((0 : ℕ) : ℤ) [Vec3.zero, ⟨2, 0, 0⟩])) 1 := by
  have hne : bondPartnerPositions [⟨(0, 1), 1⟩] ((0 : ℕ) : ℤ) [Vec3.zero, ⟨2, 0, 0⟩] ≠ [] := by
    simp [bondPartnerPositions, intGet]
  exact ⟨by norm_num, hne,
    (classical_pivot_lerp_spec 1 [⟨(0, 1), 1⟩] [Vec3.zero, ⟨2, 0, 0⟩] 0).1 (by norm_num) hne⟩

/-! ### Scene-rebuild triggering

React re-runs an effect exactly when some entry of its dependency array
changed.  The props consumed by the `AtomViewer` effects are modelled with
decidable-equality carriers (positions and scalar controls over `ℚ`), and each
effect becomes the predicate "some dependency differs between the old and the
new props".  The two callback props (`setIsLoading`, `onAtomPositionChange`)
are stable `useCallback` values in the App component and are omitted. -/

/-- The props of `AtomViewer` that appear in effect dependency arrays
(`AtomViewer.tsx` lines 8-20). -/
structure ViewerProps where
  atoms : List ℕ
  atomPositions : List (ℚ × ℚ × ℚ)
  bondingPairs : List Bond
  visualizationModeIsBohr : Bool
  trailLength : ℕ
  trailOpacity : ℚ
  bondingProgress : ℚ
  electronSpeed : ℚ
deriving DecidableEq

/-- Whether the scene-rebuild effect re-runs between two prop snapshots: its
dependency array (`AtomViewer.tsx` line 847) is
`[atoms, atomPositions, bondingPairs, setIsLoading, onAtomPositionChange,
visualizationMode, trailLength, trailOpacity]`. -/
def rebuildEffectFires (old curr : ViewerProps) : Bool :=
  old.atoms ≠ curr.atoms ∨ old.atomPositions ≠ curr.atomPositions ∨
    old.bondingPairs ≠ curr.bondingPairs ∨
    old.visualizationModeIsBohr ≠ curr.visualizationModeIsBohr ∨
    old.trailLength ≠ curr.trailLength ∨ old.trailOpacity ≠ curr.trailOpacity

/-- Whether the cheap trail-opacity effect re-runs (`AtomViewer.tsx` line 859):
its dependency array is `[trailOpacity, visualizationMode]`. -/
def trailOpacityEffectFires (old curr : ViewerProps) : Bool :=
  old.trailOpacity ≠ curr.trailOpacity ∨
    old.visualizationModeIsBohr ≠ curr.visualizationModeIsBohr

/-- A concrete prop snapshot used to exhibit the rebuild-effect defect. -/
def demoProps : ViewerProps :=
  { atoms := [8, 1, 1]
    atomPositions := [(0, 0, 0), (1, 0, 0), (0, 1, 0)]
    bondingPairs := [⟨(0, 1), 1⟩, ⟨(0, 2), 1⟩]
    visualizationModeIsBohr := true
    trailLength := 15
    trailOpacity := 1
    bondingProgress := 0
    electronSpeed := 0 }

/-- C5 (defect witness): with every other prop unchanged, changing only the
trail-opacity control re-runs the scene-rebuild effect — `trailOpacity` sits in
that effect's dependency array (`AtomViewer.tsx` line 847) although the code's
own comments (lines 724 and 849-850) and the dedicated cheap-update effect say
a trail-opacity change must not rebuild.  A bonding-progress-only change, by
contrast, does not re-run the rebuild effect, and structural changes (atom
list, bond set, mode, trail length) do. -/
theorem rebuild_effect_trailOpacity_bug :
    rebuildEffectFires demoProps { demoProps with trailOpacity := 0 } = true ∧
    rebuildEffectFires demoProps { demoProps with bondingProgress := 1 } = false ∧
    rebuildEffectFires demoProps { demoProps with electronSpeed := 1 } = false ∧
    rebuildEffectFires demoProps { demoProps with trailLength := 30 } = true ∧
    rebuildEffectFires demoProps { demoProps with visualizationModeIsBohr := false } = true ∧
    rebuildEffectFires demoProps { demoProps with atoms := [8, 1] } = true ∧
    trailOpacityEffectFires demoProps { demoProps with trailOpacity := 0 } = true := by
  decide

/-! ### Bond-model construction during a scene rebuild -/

/-- The bond groups constructed by the scene-rebuild effect (`AtomViewer.tsx`
lines 776-810): bond groups are only built when the bond list is non-empty and
more than one atom exists, and each bond is kept exactly when both of its
endpoint indices are `< atoms.length`. -/
def builtBonds (numAtoms : ℕ) (bondingPairs : List Bond) : List Bond :=
  if 0 < bondingPairs.length ∧ 1 < numAtoms then
    bondingPairs.filter fun b =>
      decide (b.pair.1 < (numAtoms : ℤ) ∧ b.pair.2 < (numAtoms : ℤ))
  else []

/-- C6 (counterexample to the claim as stated): with a single atom and a
self-bond `(0,0)`, both endpoint indices are `< atoms.length`, yet no
BondModel is constructed, because the whole bond-construction block is guarded
by `atoms.length > 1`. -/
theorem builtBonds_singleAtom_counterexample :
    builtBonds 1 [⟨(0, 0), 1⟩] = [] ∧ (0 : ℤ) < 1 := by
  decide

/-- C6 (amended): during a scene rebuild a BondModel is constructed for a bond
exactly when both of its endpoint indices are `< atoms.length` **and** at
least two atoms exist; a bond referencing an out-of-range index (such as
index 5 with only 3 atoms) is silently dropped — `builtBonds` is a total
function — while the remaining bonds are still built. -/
theorem builtBonds_mem_iff (numAtoms : ℕ) (bondingPairs : List Bond) (b : Bond) :
    b ∈ builtBonds numAtoms bondingPairs ↔
      b ∈ bondingPairs ∧ b.pair.1 < (numAtoms : ℤ) ∧ b.pair.2 < (numAtoms : ℤ) ∧
        1 < numAtoms := by
  rw [builtBonds]
  by_cases hg : 0 < bondingPairs.length ∧ 1 < numAtoms
  · rw [if_pos hg]
    simp only [List.mem_filter, decide_eq_true_eq]
    constructor
    · rintro ⟨hmem, h1, h2⟩
      exact ⟨hmem, h1, h2, hg.2⟩
    · rintro ⟨hmem, h1, h2, _⟩
      exact ⟨hmem, h1, h2⟩
  · rw [if_neg hg]
    simp only [List.not_mem_nil, false_iff]
    rintro ⟨hmem, _, _, hn⟩
    exact hg ⟨List.length_pos.mpr (List.ne_nil_of_mem hmem), hn⟩

/-! ### Per-shell and per-orbital geometry of an atom model -/

/-- Constant `SHELL_BASE_RADIUS` (`AtomViewer.tsx` line 25). -/
def SHELL_BASE_RADIUS : ℝ := 2.5

/-- Constant `SHELL_SPACING` (`AtomViewer.tsx` line 26). -/
def SHELL_SPACING : ℝ := 1.8

/-- The per-shell geometry built by the shell loop of `createAtomModel`
(`AtomViewer.tsx` lines 339-359), projected to what each iteration constructs:
for every shell entry (even one with zero electrons) a ring-path torus at
radius `(2.5 + 1.8·shellIndex)·atomScale` is pushed, and then one
pivot+electron pair per electron of the shell.  Each output entry is the pair
(ring-path radius, number of electron pivots) of one shell. -/
noncomputable def classicalShellGeometry (shells : List ℕ) (atomScale : ℝ) :
    List (ℝ × ℕ) :=
  shells.enum.map fun e =>
    ((SHELL_BASE_RADIUS + (e.1 : ℝ) * SHELL_SPACING) * atomScale, e.2)

/-- An orbital subshell letter, the `s | p | d | f` of an orbital key. -/
inductive Subshell
  | s
  | p
  | d
  | f
deriving DecidableEq, Repr

/-- Number of top-level shapes `createOrbitalShapes` adds to the orbital group
for one populated orbital key (`AtomViewer.tsx` lines 157-215): one sphere for
`s`, three dumbbell groups for `p`, two groups (the `d_z²` shape and the
clover) for `d`, one envelope sphere for `f`. -/
def orbitalShapeCount : Subshell → ℕ
  | .s => 1
  | .p => 3
  | .d => 2
  | .f => 1

/-- Shallow embedding of `createOrbitalShapes(config, scale)`
(`AtomViewer.tsx` lines 137-218), projected to the list of constructed shape
groups.  The TS `Record` from orbital key to electron count is modelled as an
association list of `((principal, subshell), electronCount)`; an entry with
zero electrons is skipped (`if (!config[orbitalKey]) continue`).  Each kept
entry yields its key, its base radius `0.9·principal·scale` and its number of
top-level shapes. -/
noncomputable def createOrbitalShapes (config : List ((ℕ × Subshell) × ℕ))
    (scale : ℝ) : List ((ℕ × Subshell) × ℝ × ℕ) :=
  config.filterMap fun e =>
    if e.2 = 0 then none
    else some (e.1, (0.9 * (e.1.1 : ℝ) * scale, orbitalShapeCount e.1.2))

/-- C7 (counterexample to the claim as stated): an atom whose single shell
holds zero electrons still gets a ring-path object for that shell — the shell
loop pushes the torus before looking at the electron count — so a zero-electron
shell does produce geometry (though no pivots). -/
theorem classicalShell_zeroElectrons_counterexample :
    classicalShellGeometry [0] 1 = [(2.5, 0)] := by
  simp only [classicalShellGeometry, List.enum, SHELL_BASE_RADIUS, SHELL_SPACING]
  norm_num

/-- C7 (amended): a shell entry with zero electrons produces no electron
pivots for that shell, but its ring-path object is still constructed (one ring
per shell entry, zero or not); an orbital key mapped to zero electrons
produces no lobe geometry in the Orbital variant; neither case is an error
(all constructions are total). -/
theorem zero_electron_geometry_spec (shells : List ℕ) (config : List ((ℕ × Subshell) × ℕ))
    (atomScale scale : ℝ) :
    ((classicalShellGeometry shells atomScale).map Prod.snd = shells) ∧
    ((classicalShellGeometry shells atomScale).length = shells.length) ∧
    (createOrbitalShapes config scale =
      createOrbitalShapes (config.filter fun e => decide (e.2 ≠ 0)) scale) := by
  refine ⟨?_, ?_, ?_⟩
  · rw [classicalShellGeometry, List.map_map]
    have : (Prod.snd ∘ fun e : ℕ × ℕ =>
        ((SHELL_BASE_RADIUS + (e.1 : ℝ) * SHELL_SPACING) * atomScale, e.2)) =
        Prod.snd := by
      funext e; rfl
    rw [this, List.enum_map_snd]
  · rw [classicalShellGeometry, List.length_map, List.enum_length]
  · rw [createOrbitalShapes, createOrbitalShapes]
    induction config with
    | nil => rfl
    | cons e rest ih =>
      by_cases he : e.2 = 0
      · rw [List.filterMap_cons, if_pos he, List.filter_cons,
          show decide (e.2 ≠ 0) = false by simp [he]]
        simp only [Bool.false_eq_true, if_false]
        exact ih
      · rw [List.filterMap_cons, if_neg he, List.filter_cons,
          show decide (e.2 ≠ 0) = true by simp [he]]
        simp only [if_true]
        rw [List.filterMap_cons, if_neg he, ih]

/-! ### Volume-uniform random point in a sphere -/

/-- Real cube root on the nonnegative reals, `Math.cbrt` as used by the
source (its argument is always a draw in `[0,1]`). -/
noncomputable def cbrt (x : ℝ) : ℝ := x ^ ((1 : ℝ) / 3)

/-- Shallow embedding of `getRandomPointInSphere(radius)` (`AtomViewer.tsx`
lines 71-82).  The three `Math.random()` draws become the explicit arguments
`u`, `v`, `w`: `theta = 2π·u`, `phi = acos(2v − 1)`, `r = radius·cbrt(w)`, and
the point is `(r sin φ cos θ, r sin φ sin θ, r cos φ)`. -/
noncomputable def getRandomPointInSphere (radius u v w : ℝ) : Vec3 :=
  let theta := 2 * Real.pi * u
  let phi := Real.arccos (2 * v - 1)
  let r := radius * cbrt w
  ⟨r * Real.sin phi * Real.cos theta, r * Real.sin phi * Real.sin theta, r * Real.cos phi⟩

theorem cbrt_nonneg (x : ℝ) (hx : 0 ≤ x) : 0 ≤ cbrt x := Real.rpow_nonneg hx _

theorem cbrt_le_one (x : ℝ) (h0 : 0 ≤ x) (h1 : x ≤ 1) : cbrt x ≤ 1 :=
  Real.rpow_le_one h0 h1 (by norm_num)

/-- C8: for every radius `r ≥ 0` and draws `u, v, w ∈ [0,1]` (only `w` matters
for the length), the point returned by `getRandomPointInSphere` lies at
distance exactly `r·cbrt(w)` from the origin, hence at distance at most `r`;
its angular coordinates are `theta = 2πu` and `phi = acos(2v−1)` by
construction. -/
theorem getRandomPointInSphere_spec (radius u v w : ℝ)
    (hr : 0 ≤ radius) (hw0 : 0 ≤ w) (hw1 : w ≤ 1) :
    (getRandomPointInSphere radius u v w).norm = radius * cbrt w ∧
    (getRandomPointInSphere radius u v w).norm ≤ radius := by
  have hR : 0 ≤ radius * cbrt w := mul_nonneg hr (cbrt_nonneg w hw0)
  have hnorm : (getRandomPointInSphere radius u v w).norm = radius * cbrt w := by
    unfold getRandomPointInSphere Vec3.norm Vec3.normSq
    simp only
    set r := radius * cbrt w
    set phi := Real.arccos (2 * v - 1)
    set theta := 2 * Real.pi * u
    have hs : Real.sin phi ^ 2 + Real.cos phi ^ 2 = 1 := Real.sin_sq_add_cos_sq phi
    have ht : Real.cos theta ^ 2 + Real.sin theta ^ 2 = 1 := Real.cos_sq_add_sin_sq theta
    have hsum : r * Real.sin phi * Real.cos theta * (r * Real.sin phi * Real.cos theta) +
        r * Real.sin phi * Real.sin theta * (r * Real.sin phi * Real.sin theta) +
        r * Real.cos phi * (r * Real.cos phi) = r ^ 2 := by
      have e1 : r * Real.sin phi * Real.cos theta * (r * Real.sin phi * Real.cos theta) +
          r * Real.sin phi * Real.sin theta * (r * Real.sin phi * Real.sin theta) +
          r * Real.cos phi * (r * Real.cos phi) =
          r ^ 2 * (Real.sin phi ^ 2 * (Real.cos theta ^ 2 + Real.sin theta ^ 2) +
            Real.cos phi ^ 2) := by ring
      rw [e1, ht, mul_one, hs, mul_one]
    rw [hsum, Real.sqrt_sq hR]
  refine ⟨hnorm, ?_⟩
  rw [hnorm]
  calc radius * cbrt w ≤ radius * 1 :=
        mul_le_mul_of_nonneg_left (cbrt_le_one w hw0 hw1) hr
    _ = radius := mul_one radius

/-- Witness for `getRandomPointInSphere_spec` at `radius = 1`, `u = v = 0`,
`w = 1`. -/
theorem getRandomPointInSphere_spec_witness :
    (0 : ℝ) ≤ 1 ∧ (getRandomPointInSphere 1 0 0 1).norm ≤ 1 :=
  ⟨by norm_num,
    (getRandomPointInSphere_spec 1 0 0 1 (by norm_num) (by norm_num) (by norm_num)).2⟩

/-! ### How bonds enter the application's bond list -/

/-- Shallow embedding of `handleAddBond` (`src/unnamed/part_001` lines
570-580): sort the two indices ascending (`[from, to].sort((a,b) => a-b)`),
return the list unchanged if a bond with that sorted pair already exists
(whatever its order), otherwise append the new bond. -/
def handleAddBond (currentBonds : List Bond) (fromIndex toIndex : ℤ)
    (btype : ℕ) : List Bond :=
  let newPair : ℤ × ℤ :=
    if fromIndex ≤ toIndex then (fromIndex, toIndex) else (toIndex, fromIndex)
  if currentBonds.any fun b => b.pair.1 == newPair.1 && b.pair.2 == newPair.2 then
    currentBonds
  else currentBonds ++ [⟨newPair, btype⟩]

/-- The bond-block loop of `parseSDF` (`src/data/molecules.ts` lines 161-172),
taking the numeric fields already read from each bond line: the two 1-indexed
endpoints (each decremented by 1) and the bond type, kept only when the type is
1, 2 or 3, with the pair stored as `(min, max)`. -/
def parseSDFBonds (rows : List (ℤ × ℤ × ℕ)) : List Bond :=
  rows.filterMap fun row =>
    let a := row.1 - 1
    let b := row.2.1 - 1
    let btype := row.2.2
    if btype = 1 ∨ btype = 2 ∨ btype = 3 then
      some ⟨(min a b, max a b), btype⟩
    else none

/-- One CONECT neighbour of `parsePDB` (`src/data/molecules.ts` lines
228-234): form the sorted index pair, skip it when already present in the
dedup set, otherwise record a single bond and remember the pair. -/
def conectAddBond (acc : List Bond × List (ℕ × ℕ)) (fromIndex toIndex : ℕ) :
    List Bond × List (ℕ × ℕ) :=
  let p := (min fromIndex toIndex, max fromIndex toIndex)
  if p ∈ acc.2 then acc
  else (acc.1 ++ [⟨((p.1 : ℤ), (p.2 : ℤ)), 1⟩], acc.2 ++ [p])

/-- One CONECT record of `parsePDB` (`src/data/molecules.ts` lines 218-237):
the first serial on the line is resolved through the atom map; when it
resolves, every remaining serial that also resolves contributes a neighbour. -/
def conectRow (atomMap : ℤ → Option ℕ) (acc : List Bond × List (ℕ × ℕ))
    (row : List ℤ) : List Bond × List (ℕ × ℕ) :=
  match row with
  | [] => acc
  | fromSerial :: rest =>
    match atomMap fromSerial with
    | none => acc
    | some fromIndex =>
      rest.foldl (fun a toSerial =>
        match atomMap toSerial with
        | none => a
        | some toIndex => conectAddBond a fromIndex toIndex) acc

/-- The CONECT-record bond list of `parsePDB`: fold over all CONECT rows
starting from no bonds and an empty dedup set. -/
def parsePDBConectBonds (atomMap : ℤ → Option ℕ) (rows : List (List ℤ)) :
    List Bond :=
  (rows.foldl (conectRow atomMap) ([], [])).1

/-- The distance-inference fallback of `parsePDB` (`src/data/molecules.ts`
lines 241-254): for every index pair `i < j` (the inner loop runs
`j = i+1 … n-1`, rendered here as a filter over the full range) whose
positions are closer than the sum of the two covalent radii plus the
tolerance, emit a single bond `(i, j)`.  `radius k` stands for
`covalentRadii[symbols[k]] || covalentRadii.DEFAULT`. -/
noncomputable def parsePDBInferredBonds (positions : List Vec3) (radius : ℕ → ℝ)
    (bondTolerance : ℝ) : List Bond :=
  (List.range positions.length).bind fun i =>
    ((List.range positions.length).filter fun j => decide (i < j)).filterMap fun j =>
      if Vec3.dist (positions.getD i Vec3.zero) (positions.getD j Vec3.zero) <
          radius i + radius j + bondTolerance then
        some ⟨((i : ℤ), (j : ℤ)), 1⟩
      else none

/-- A fold preserves a predicate that every step preserves. -/
theorem foldl_preserves {α β : Type} (P : α → Prop) (step : α → β → α)
    (hstep : ∀ a b, P a → P (step a b)) :
    ∀ (l : List β) (acc : α), P acc → P (l.foldl step acc) := by
  intro l
  induction l with
  | nil => intro acc h; exact h
  | cons x xs ih => intro acc h; exact ih (step acc x) (hstep acc x h)

/-- All bond pairs recorded by `conectAddBond` stay sorted ascending. -/
theorem conectAddBond_sorted (acc : List Bond × List (ℕ × ℕ)) (i j : ℕ)
    (h : ∀ b ∈ acc.1, b.pair.1 ≤ b.pair.2) :
    ∀ b ∈ (conectAddBond acc i j).1, b.pair.1 ≤ b.pair.2 := by
  intro b hb
  rw [conectAddBond] at hb
  by_cases hmem : (min i j, max i j) ∈ acc.2
  · rw [if_pos hmem] at hb
    exact h b hb
  · rw [if_neg hmem] at hb
    simp only [List.mem_append, List.mem_singleton] at hb
    rcases hb with hb | hb
    · exact h b hb
    · subst hb
      exact_mod_cast Nat.cast_le.mpr (min_le_max)

/-- C9: every bond that enters the application's bond list carries an
ascending index pair — the bond appended by `handleAddBond`, every bond kept
by the SDF parser, and every bond produced by either PDB path — and
`handleAddBond` leaves the list unchanged when the two atoms already share a
bond, in either argument order and regardless of the requested bond order. -/
theorem bond_pair_ascending_spec :
    (∀ (bonds : List Bond) (f t : ℤ) (ty : ℕ), ∀ b ∈ handleAddBond bonds f t ty,
      b ∈ bonds ∨ b.pair.1 ≤ b.pair.2) ∧
    (∀ (bonds : List Bond) (f t : ℤ) (ty : ℕ),
      (∃ b ∈ bonds, b.pair = (min f t, max f t)) → handleAddBond bonds f t ty = bonds) ∧
    (∀ rows, ∀ b ∈ parseSDFBonds rows, b.pair.1 ≤ b.pair.2) ∧
    (∀ atomMap rows, ∀ b ∈ parsePDBConectBonds atomMap rows, b.pair.1 ≤ b.pair.2) ∧
    (∀ positions radius tol, ∀ b ∈ parsePDBInferredBonds positions radius tol,
      b.pair.1 ≤ b.pair.2) := by
  refine ⟨?_, ?_, ?_, ?_, ?_⟩
  · intro bonds f t ty b hb
    rw [handleAddBond] at hb
    by_cases hany : bonds.any fun b =>
        b.pair.1 == (if f ≤ t then (f, t) else (t, f)).1 &&
        b.pair.2 == (if f ≤ t then (f, t) else (t, f)).2
    · rw [if_pos hany] at hb
      exact Or.inl hb
    · rw [if_neg hany] at hb
      simp only [List.mem_append, List.mem_singleton] at hb
      rcases hb with hb | hb
      · exact Or.inl hb
      · refine Or.inr ?_
        subst hb
        by_cases hft : f ≤ t
        · simp only [if_pos hft]; exact hft
        · simp only [if_neg hft]; exact le_of_lt (lt_of_not_le hft)
  · intro bonds f t ty hex
    obtain ⟨b0, hb0, hp⟩ := hex
    rw [handleAddBond]
    have hpair : (if f ≤ t then (f, t) else (t, f)) = (min f t, max f t) := by
      by_cases hft : f ≤ t
      · rw [if_pos hft, min_eq_left hft, max_eq_right hft]
      · have h2 := le_of_lt (lt_of_not_le hft)
        rw [if_neg hft, min_eq_right h2, max_eq_left h2]
    rw [hpair]
    have hany : bonds.any (fun b => b.pair.1 == (min f t, max f t).1 &&
        b.pair.2 == (min f t, max f t).2) = true := by
      rw [List.any_eq_true]
      refine ⟨b0, hb0, ?_⟩
      rw [hp]
      simp
    rw [if_pos hany]
  · intro rows b hb
    rw [parseSDFBonds] at hb
    simp only [List.mem_filterMap] at hb
    obtain ⟨row, _, hrow⟩ := hb
    by_cases hty : row.2.2 = 1 ∨ row.2.2 = 2 ∨ row.2.2 = 3
    · rw [if_pos hty, Option.some_inj] at hrow
      rw [← hrow]
      exact min_le_max
    · rw [if_neg hty] at hrow
      exact absurd hrow (Option.noConfusion)
  · intro atomMap rows b hb
    have hP : ∀ b ∈ ((rows.foldl (conectRow atomMap) ([], [])).1 : List Bond),
        b.pair.1 ≤ b.pair.2 := by
      refine foldl_preserves (fun acc => ∀ b ∈ acc.1, b.pair.1 ≤ b.pair.2)
        (conectRow atomMap) ?_ rows ([], []) (by intro b hb; simp at hb)
      intro acc row hacc
      match row with
      | [] => exact hacc
      | fromSerial :: rest =>
        rw [conectRow.eq_def]
        cases hm : atomMap fromSerial with
        | none =>
          simp only [hm]
          exact hacc
        | some fromIndex =>
          simp only [hm]
          refine foldl_preserves (fun a => ∀ b ∈ a.1, b.pair.1 ≤ b.pair.2)
            _ ?_ rest acc hacc
          intro a toSerial ha
          cases hm2 : atomMap toSerial with
          | none => exact ha
          | some toIndex => exact conectAddBond_sorted a fromIndex toIndex ha
    exact hP b hb
  · intro positions radius tol b hb
    rw [parsePDBInferredBonds] at hb
    simp only [List.mem_bind, List.mem_filterMap, List.mem_filter,
      List.mem_range, decide_eq_true_eq] at hb
    obtain ⟨i, _, j, ⟨_, hij⟩, hcond⟩ := hb
    by_cases hclose : Vec3.dist (positions.getD i Vec3.zero) (positions.getD j Vec3.zero) <
        radius i + radius j + tol
    · rw [if_pos hclose, Option.some_inj] at hcond
      rw [← hcond]
      exact_mod_cast Nat.cast_le.mpr (le_of_lt hij)
    · rw [if_neg hclose] at hcond
      exact absurd hcond (Option.noConfusion)

/-- Witness for `bond_pair_ascending_spec`: adding a bond between atoms 2 and
1, which already share the stored bond `(1, 2)`, leaves the list unchanged
even though the arguments come reversed and the requested order differs. -/
theorem bond_pair_ascending_spec_witness :
    (∃ b ∈ ([⟨(1, 2), 1⟩] : List Bond), b.pair = (min (2 : ℤ) 1, max (2 : ℤ) 1)) ∧
    handleAddBond [⟨(1, 2), 1⟩] 2 1 3 = [⟨(1, 2), 1⟩] := by
  have hex : ∃ b ∈ ([⟨(1, 2), 1⟩] : List Bond), b.pair = (min (2 : ℤ) 1, max (2 : ℤ) 1) := by
    refine ⟨⟨(1, 2), 1⟩, by simp, by decide⟩
  exact ⟨hex, bond_pair_ascending_spec.2.1 [⟨(1, 2), 1⟩] 2 1 3 hex⟩

/-! ### Quantum mode and the electron-speed control -/

/-- The visualization mode prop, `'bohr' | 'quantum'`. -/
inductive Mode
  | bohr
  | quantum
deriving DecidableEq, Repr

/-- The speed stored into the animation state by the prop-update effect
(`AtomViewer.tsx` lines 473-476):
`visualizationMode === 'bohr' ? electronSpeed : 0`. -/
def animationStateSpeed (visualizationMode : Mode) (electronSpeed : ℝ) : ℝ :=
  if visualizationMode = Mode.bohr then electronSpeed else 0

/-- Constant `ELECTRON_TARGET_THRESHOLD` (`AtomViewer.tsx` line 40). -/
def ELECTRON_TARGET_THRESHOLD : ℝ := 0.5

/-- Constant `ELECTRON_MOVE_SPEED` (`AtomViewer.tsx` line 41). -/
def ELECTRON_MOVE_SPEED : ℝ := 0.08

/-- The `Math.random()` draws consumed by one call of
`getRandomPointInOrbital`: three for the sphere sample, plus the axis pick and
sign pick of the `p` branch. -/
structure OrbitalDraws where
  u : ℝ
  v : ℝ
  w : ℝ
  axisDraw : ℝ
  dirDraw : ℝ

/-- Shallow embedding of `getRandomPointInOrbital(orbitalKey, scale)`
(`AtomViewer.tsx` lines 89-116).  The key string is modelled by its parsed
parts `(principal, subshell)`; `baseRadius = 0.9·principal·scale`; the `p`
branch draws an axis index `floor(3·draw)` and a sign, then offsets a sphere
sample of radius `0.7·baseRadius` along that axis; `d` and `f` use enlarged
sphere samples. -/
noncomputable def getRandomPointInOrbital (principal : ℕ) (t : Subshell)
    (scale : ℝ) (d : OrbitalDraws) : Vec3 :=
  let baseRadius := 0.9 * (principal : ℝ) * scale
  match t with
  | .s => getRandomPointInSphere baseRadius d.u d.v d.w
  | .p =>
    let lobeSize := baseRadius * 0.7
    let axisIndex : ℤ := ⌊d.axisDraw * 3⌋
    let direction : ℝ := if d.dirDraw < 1 / 2 then 1 else -1
    let pointInLobe := getRandomPointInSphere lobeSize d.u d.v d.w
    if axisIndex = 0 then { pointInLobe with x := pointInLobe.x + direction * baseRadius }
    else if axisIndex = 1 then { pointInLobe with y := pointInLobe.y + direction * baseRadius }
    else { pointInLobe with z := pointInLobe.z + direction * baseRadius }
  | .d => getRandomPointInSphere (baseRadius * 1.5) d.u d.v d.w
  | .f => getRandomPointInSphere (baseRadius * 1.8) d.u d.v d.w

/-- Per-electron animation state of the Quantum model (`AtomViewer.tsx`
lines 59-63). -/
structure ElectronAnimationState where
  orbitalKey : ℕ × Subshell
  currentPosition : Vec3
  targetPosition : Vec3

/-- The animation state record `animationStateRef.current`
(`AtomViewer.tsx` line 470). -/
structure AnimState where
  speed : ℝ
  bondingProgress : ℝ

/-- One Quantum-mode step of one electron (`AtomViewer.tsx` lines 650-654):
when the current position is within the threshold of the target, a fresh
random target is drawn from the orbital; the current position then lerps
toward the target by the fixed fraction 0.08. -/
noncomputable def quantumElectronStep (atomScale : ℝ) (d : OrbitalDraws)
    (anim : ElectronAnimationState) : ElectronAnimationState :=
  let target :=
    if Vec3.dist anim.currentPosition anim.targetPosition < ELECTRON_TARGET_THRESHOLD then
      getRandomPointInOrbital anim.orbitalKey.1 anim.orbitalKey.2 atomScale d
    else anim.targetPosition
  { anim with
    targetPosition := target
    currentPosition := Vec3.lerp anim.currentPosition target ELECTRON_MOVE_SPEED }

/-- The whole Quantum branch of one animation tick for one atom plus the bond
pose section (`AtomViewer.tsx` lines 639-692): the tick destructures
`const { speed, bondingProgress } = animationStateRef.current` and, in Quantum
mode, steps every electron animation state, shifts every electron's trail
buffer with the new current position, and updates the bond poses from the
bonding progress — the `speed` field is never read anywhere in this branch. -/
noncomputable def quantumFrame (st : AnimState) (atomScale : ℝ)
    (draws : ℕ → OrbitalDraws) (anims : List ElectronAnimationState)
    (trails : List (List Vec3)) (nuclei : List Vec3) (bonds : List BondState) :
    List ElectronAnimationState × List (List Vec3) × List BondState :=
  let newAnims := anims.enum.map fun e => quantumElectronStep atomScale (draws e.1) e.2
  let newTrails := (newAnims.zip trails).map fun p => tickTrail p.1.currentPosition p.2
  let newBonds := updateBonds st.bondingProgress nuclei bonds
  (newAnims, newTrails, newBonds)

/-- C10: whenever the visualization mode is not `'bohr'` the stored animation
speed is 0, and the Quantum-mode tick is independent of the speed field: two
frames whose animation states differ only in `speed` produce identical
electron-cloud, trail and bond updates. -/
theorem quantum_speed_noninterference :
    (∀ (m : Mode) (s : ℝ), m ≠ Mode.bohr → animationStateSpeed m s = 0) ∧
    (∀ (s₁ s₂ p atomScale : ℝ) (draws : ℕ → OrbitalDraws)
        (anims : List ElectronAnimationState) (trails : List (List Vec3))
        (nuclei : List Vec3) (bonds : List BondState),
      quantumFrame ⟨s₁, p⟩ atomScale draws anims trails nuclei bonds =
        quantumFrame ⟨s₂, p⟩ atomScale draws anims trails nuclei bonds) := by
  constructor
  · intro m s hm
    rw [animationStateSpeed, if_neg hm]
  · intro s₁ s₂ p atomScale draws anims trails nuclei bonds
    rfl

/-- Witness for `quantum_speed_noninterference`: in Quantum mode the stored
speed is 0 whatever the electron-speed control says. -/
theorem quantum_speed_noninterference_witness :
    Mode.quantum ≠ Mode.bohr ∧ animationStateSpeed Mode.quantum 5 = 0 :=
  ⟨by decide, quantum_speed_noninterference.1 Mode.quantum 5 (by decide)⟩

end AtomVis
